import Mathlib

/-!
Verification of the dialogue-to-audio alignment and timeline-assembly engine
of this repository (file `src/video.py`).

The embedding models the numeric / list-processing core of
`get_exact_sentence_timestamps` (lines 24-159) and `process_conversation`
(lines 246-451) over exact rationals.  External collaborators (the Whisper
transcription, `difflib.SequenceMatcher`, pydub audio objects, ffmpeg) are
modelled at their interface boundary: the token list, the edit-script opcode
list, and the measured clip durations are inputs of the embedded functions,
exactly as the spec treats them (spec sections 4.1, 4.4, 6).
-/

namespace LangVideo

/-- A recognized word token with start/end time, as produced by the word
alignment adapter (`whisper_words` entries built on `video.py` lines 33-44;
text already lowercased and stripped to alphanumeric characters there). -/
structure Token where
  text : String
  tStart : ℚ
  tEnd : ℚ
deriving DecidableEq

/-- Default token used to totalize list indexing (the Python code indexes
`whisper_words[...]` directly; all reachable accesses are in range). -/
def token0 : Token := ⟨("" : String), 0, 0⟩

/-- One entry of `sentence_timestamps`: the dict
`{text, start, end, duration}` built throughout
`get_exact_sentence_timestamps`. -/
structure SentenceTimestamp where
  text : String
  tStart : ℚ
  tEnd : ℚ
  dur : ℚ
deriving DecidableEq

/-- Default entry used to totalize list indexing. -/
def sts0 : SentenceTimestamp := ⟨("" : String), 0, 0, 0⟩

/-! ### Sentence cleaning (`video.py` lines 50-54)

`clean_sentence = join(c for c in sentence.lower() if c.isalnum() or c.isspace())`
followed by `clean_sentence.split()` (split on whitespace runs, dropping
empty pieces). -/

/-- Lowercase the characters of a sentence and keep only alphanumeric and
whitespace characters (`video.py` line 51). -/
def cleanChars (s : String) : List Char :=
  (s.toList.map Char.toLower).filter (fun c => c.isAlphanum || c.isWhitespace)

/-- Split a character list into maximal whitespace-free words, as Python
`str.split()` does; `acc` holds the current word reversed. -/
def splitWordsGo : List Char → List Char → List String
  | [], acc => if acc = [] then [] else [String.mk acc.reverse]
  | c :: cs, acc =>
    if c.isWhitespace then
      (if acc = [] then [] else [String.mk acc.reverse]) ++ splitWordsGo cs []
    else
      splitWordsGo cs (c :: acc)

/-- The cleaned word list of one known sentence (`video.py` lines 51-52). -/
def cleanWords (s : String) : List String :=
  splitWordsGo (cleanChars s) []

/-- Flattening loop of `video.py` lines 49-54: each sentence contributes its
cleaned words tagged with the sentence index `i`. -/
def twiGo : ℕ → List String → List (ℕ × String)
  | _, [] => []
  | i, s :: rest => ((cleanWords s).map (fun w => (i, w))) ++ twiGo (i + 1) rest

/-- `target_words_with_idx` (`video.py` lines 49-54). -/
def targetWordsWithIdx (ss : List String) : List (ℕ × String) :=
  twiGo 0 ss

/-! ### Edit-script opcode assignment (`video.py` lines 72-89)

`difflib.SequenceMatcher.get_opcodes()` is an external library call; the
opcode list is an input of the embedding, as the spec specifies the adapter
boundary.  The assignment of whisper-token indices to sentences is the
repository's own code and is embedded faithfully. -/

/-- The opcode classes of `difflib.SequenceMatcher.get_opcodes`. -/
inductive OpTag
  | equal
  | replace
  | insert
  | delete
deriving DecidableEq

/-- One opcode `(tag, i1, i2, j1, j2)`: target words `[i1, i2)` against
observed tokens `[j1, j2)`. -/
structure Opcode where
  tag : OpTag
  i1 : ℕ
  i2 : ℕ
  j1 : ℕ
  j2 : ℕ
deriving DecidableEq

/-- The `(sentence index, whisper index)` pairs appended for one opcode
(`video.py` lines 75-89).  `twi` is `target_words_with_idx` projected to its
sentence indices (the code reads `target_words_with_idx[...][0]`).
For `replace`, `int(k * (i2 - i1) / (j2 - j1))` is floor division on
nonnegative values, hence natural division here. -/
def opcodeRun (twi : List ℕ) (op : Opcode) : List (ℕ × ℕ) :=
  match op.tag with
  | .equal =>
    (List.range (op.j2 - op.j1)).map (fun k => (twi.getD (op.i1 + k) 0, op.j1 + k))
  | .replace =>
    (List.range (op.j2 - op.j1)).map
      (fun k => (twi.getD (op.i1 + k * (op.i2 - op.i1) / (op.j2 - op.j1)) 0, op.j1 + k))
  | .insert =>
    (List.range (op.j2 - op.j1)).map
      (fun k => ((if op.i1 < twi.length then twi.getD op.i1 0 else (twi.getLast?).getD 0),
                 op.j1 + k))
  | .delete => []

/-- All `(sentence index, whisper index)` pairs appended over the whole
opcode walk, in append order (`video.py` lines 75-89). -/
def opcodePairs (twi : List ℕ) : List Opcode → List (ℕ × ℕ)
  | [] => []
  | op :: rest => opcodeRun twi op ++ opcodePairs twi rest

/-- `sentence_to_whisper_indices[i]`: the whisper indices appended for
sentence `i`, in append order (the per-key view of the dict built on
`video.py` lines 73-89). -/
def sentence_to_whisper_indices (twi : List ℕ) (ops : List Opcode) (i : ℕ) : List ℕ :=
  ((opcodePairs twi ops).filter (fun p => p.1 == i)).map (fun p => p.2)

/-! ### Raw per-sentence entries (`video.py` lines 91-124) -/

/-- Build one raw `sentence_timestamps` entry for sentence text `s` with
assigned whisper `indices`, given the previously appended entry `prev`
(`sentence_timestamps[-1]`, when the list is nonempty):
fallback slot for zero assigned tokens (lines 94-102), else first/last token
boundaries (lines 104-105) with the monotonicity fix of lines 110-115. -/
def mkEntry (ww : List Token) (prev : Option SentenceTimestamp) (s : String)
    (indices : List ℕ) : SentenceTimestamp :=
  match indices with
  | [] =>
    let lastEnd : ℚ := match prev with | some p => p.tEnd | none => 0
    ⟨s, lastEnd, lastEnd + 1, 1⟩
  | j :: js =>
    let startTime := (ww.getD j token0).tStart
    let endTime := (ww.getD ((j :: js).getLast (List.cons_ne_nil j js)) token0).tEnd
    match prev with
    | none => ⟨s, startTime, endTime, endTime - startTime⟩
    | some p =>
      let st := if startTime < p.tStart then p.tStart else startTime
      let en := if endTime ≤ st then st + 1/2 else endTime
      ⟨s, st, en, en - st⟩

/-- The `for i, sentence in enumerate(known_sentences)` loop of
`video.py` lines 91-124, carrying the previously appended entry. -/
def buildGo (ww : List Token) (idx : ℕ → List ℕ) :
    Option SentenceTimestamp → ℕ → List String → List SentenceTimestamp
  | _, _, [] => []
  | prev, i, s :: rest =>
    let e := mkEntry ww prev s (idx i)
    e :: buildGo ww idx (some e) (i + 1) rest

/-- The raw (pre-normalization) `sentence_timestamps` list produced by
`video.py` lines 72-124 from the sentences, the token stream and the
edit-script opcodes. -/
def buildSentenceEntries (ss : List String) (ww : List Token) (ops : List Opcode) :
    List SentenceTimestamp :=
  buildGo ww (sentence_to_whisper_indices ((targetWordsWithIdx ss).map Prod.fst) ops)
    none 0 ss

/-! ### Timeline normalization (`video.py` lines 129-157) -/

/-- Boundary repair for one consecutive pair `(end_i, start_{i+1})`
(`video.py` lines 134-144): overlap collapses to the midpoint, otherwise the
gap is padded by `min(0.1, gap/2)` on each side. -/
def fixPair (e s : ℚ) : ℚ × ℚ :=
  if e > s then
    ((e + s) / 2, (e + s) / 2)
  else
    (e + min 0.1 ((s - e) / 2), s - min 0.1 ((s - e) / 2))

/-- One step of the pairwise pass, carrying the current entry `a` (whose
`start` is already final) along the remaining entries. -/
def ogpGo (a : SentenceTimestamp) : List SentenceTimestamp → List SentenceTimestamp
  | [] => [a]
  | b :: rest =>
    let p := fixPair a.tEnd b.tStart
    ⟨a.text, a.tStart, p.1, p.1 - a.tStart⟩ :: ogpGo ⟨b.text, p.2, b.tEnd, b.dur⟩ rest

/-- The pairwise overlap/gap pass of `video.py` lines 129-146: each iteration
repairs `(end_i, start_{i+1})` and recomputes `duration_i`; the last entry's
duration is not touched by this loop. -/
def overlapGapPass : List SentenceTimestamp → List SentenceTimestamp
  | [] => []
  | a :: rest => ogpGo a rest

/-- The clamp applied to every entry on `video.py` lines 154-157: a strictly
negative duration is forced to `0.1` with `end = start + 0.1`. -/
def clampEntry (x : SentenceTimestamp) : SentenceTimestamp :=
  if x.dur < 0 then ⟨x.text, x.tStart, x.tStart + 0.1, 0.1⟩ else x

/-- The final pass of `video.py` lines 149-157: the last entry's duration is
recomputed (lines 151-152), then every entry is clamped (lines 154-157). -/
def durationClampPass : List SentenceTimestamp → List SentenceTimestamp
  | [] => []
  | [a] => [clampEntry ⟨a.text, a.tStart, a.tEnd, a.tEnd - a.tStart⟩]
  | a :: b :: rest => clampEntry a :: durationClampPass (b :: rest)

/-- The full normalization stage of `get_exact_sentence_timestamps`
(`video.py` lines 129-157). -/
def normalizeTimeline (l : List SentenceTimestamp) : List SentenceTimestamp :=
  durationClampPass (overlapGapPass l)

/-! ### Global fallback and the full aligner (`video.py` lines 56-67, 159) -/

/-- The sequential 2.0-second placeholder layout of `video.py` lines 58-66. -/
def fallbackGo : ℚ → List String → List SentenceTimestamp
  | _, [] => []
  | t, s :: rest => ⟨s, t, t + 2, 2⟩ :: fallbackGo (t + 2) rest

/-- `get_exact_sentence_timestamps` (`video.py` lines 24-159) with the
external transcription and matcher results (`ww`, `ops`) as inputs: the
empty-input fallback returns unnormalized placeholder slots (line 67);
otherwise the raw entries are built and then normalized. -/
def get_exact_sentence_timestamps (ss : List String) (ww : List Token)
    (ops : List Opcode) : List SentenceTimestamp :=
  if targetWordsWithIdx ss = [] ∨ ww = [] then
    fallbackGo 0 ss
  else
    normalizeTimeline (buildSentenceEntries ss ww ops)

/-! ### Playback timeline builder (`video.py` lines 265-364)

The original audio, its per-line slice and the ffmpeg `atempo` output are
external audio objects; the embedding takes, per line, the measured duration
of the normal-speed slice and of the slowed clip (`duration_s` on line 301
and `slow_duration_s` on line 345) and models the cursor walk and the
composite track length, which are additive over appended pieces. -/

/-- One entry of the rebuilt timeline: an element of `new_timestamps`
(`video.py` lines 304-308, 347-351) paired with its line index and its
`is_repeated_flags` value. -/
structure PlaybackSegment where
  lineIdx : ℕ
  isRepeated : Bool
  tStart : ℚ
  tEnd : ℚ
  dur : ℚ
deriving DecidableEq

/-- Default playback segment used to totalize list indexing. -/
def seg0 : PlaybackSegment := ⟨0, false, 0, 0, 0⟩

/-- The per-line loop of `video.py` lines 283-359 followed by the trailing
0.5-second silence of lines 362-364: for each line, emit the normal-speed
segment, advance by its duration plus 1.0s of silence, emit the slow
segment, advance by its duration plus 2.0s of silence.  Returns the segment
list and the final cursor `current_new_time`, which equals the composite
track's length because every appended piece advances the cursor by exactly
its own measured duration. -/
def buildPlaybackGo : ℕ → ℚ → List (ℚ × ℚ) → List PlaybackSegment × ℚ
  | _, t, [] => ([], t + 0.5)
  | i, t, (d1, d2) :: rest =>
    let s1 : PlaybackSegment := ⟨i, false, t, t + d1, d1⟩
    let t1 := t + d1 + 1
    let s2 : PlaybackSegment := ⟨i, true, t1, t1 + d2, d2⟩
    let t2 := t1 + d2 + 2
    let r := buildPlaybackGo (i + 1) t2 rest
    (s1 :: s2 :: r.1, r.2)

/-- The playback timeline builder: measured (normal, slow) durations per
original line in, `(PlaybackSegment list, composite duration)` out. -/
def buildPlayback (ds : List (ℚ × ℚ)) : List PlaybackSegment × ℚ :=
  buildPlaybackGo 0 0 ds

/-! ### Segment assembler (`video.py` lines 379-425) -/

/-- An image reference in the concat instruction list: the conversation's
background image (`bg_image_path`) or the composited still frame written for
segment `i` (`temp_frame_{conv_idx}_{i}.png`). -/
inductive ImageRef
  | background
  | frame (i : ℕ)
deriving DecidableEq

/-- One ordered-stills instruction: a `file '...'` line followed by a
`duration ...` line in the ffmpeg concat file. -/
structure ConcatInstr where
  image : ImageRef
  dur : ℚ
deriving DecidableEq

/-- The cursor walk of `video.py` lines 383-422: per segment, a
background-only gap instruction when `segment.start > t` (duration
`max(0.001, start - t)`, lines 390-394), then the still-frame instruction of
duration `max(0.1, end - start)` (lines 397-413, the guard
`bubble_duration > 0` included), cursor advanced to `segment.end`
(line 415); after the last segment a background instruction of duration
`max(0.001, T - t)` exactly when `t < T - 0.001` (lines 419-422). -/
def buildConcatGo : ℕ → ℚ → List PlaybackSegment → ℚ → List ConcatInstr
  | _, t, [], T =>
    if t < T - 0.001 then [⟨.background, max 0.001 (T - t)⟩] else []
  | i, t, seg :: rest, T =>
    let gap : List ConcatInstr :=
      if seg.tStart > t then [⟨.background, max 0.001 (seg.tStart - t)⟩] else []
    let bd := max 0.1 (seg.tEnd - seg.tStart)
    let bubble : List ConcatInstr := if bd > 0 then [⟨.frame i, bd⟩] else []
    gap ++ bubble ++ buildConcatGo (i + 1) seg.tEnd rest T

/-- The full concat-file construction: the instruction list of
`video.py` lines 379-422 plus the image reference appended once more as the
terminal line 425 (`file '{bg_image_path}'` — always the background). -/
def buildConcat (segs : List PlaybackSegment) (T : ℚ) : List ConcatInstr × ImageRef :=
  (buildConcatGo 0 0 segs T, .background)

/-! ### Audio slice window safety (`video.py` lines 287-298)

`start_ms`/`end_ms` are `int(ts * 1000)` millisecond values and
`orig_audio_len_ms = len(orig_audio)`; the two fixes before slicing are
embedded over integers. -/

/-- The slice end actually used on `video.py` line 298: `end_ms` forced to
`start_ms + 1000` when `end_ms <= start_ms` (lines 291-292), then clamped to
the measured audio length (lines 295-296). -/
def sliceEndMs (startMs endMs audioLenMs : ℤ) : ℤ :=
  let e1 := if endMs ≤ startMs then startMs + 1000 else endMs
  if e1 > audioLenMs then audioLenMs else e1

/-! ### Spec-side definitions for the exact-match aligner claim

These follow the spec's words (spec section 4.2 and section 8,
"per-sentence boundaries exactly equal to the first/last matched token's
start/end") and are compared with the embedded pipeline. -/

/-- Number of cleaned words of one sentence. -/
def sentenceWordCount (s : String) : ℕ := (cleanWords s).length

/-- Position in the flattened target word sequence of sentence `i`'s first
word. -/
def wordOffset (ss : List String) (i : ℕ) : ℕ :=
  ((ss.take i).map sentenceWordCount).sum

/-- Start time of sentence `i`'s first matched token under a 1:1 match. -/
def rawStartAt (ss : List String) (ww : List Token) (i : ℕ) : ℚ :=
  (ww.getD (wordOffset ss i) token0).tStart

/-- End time of sentence `i`'s last matched token under a 1:1 match. -/
def rawEndAt (ss : List String) (ww : List Token) (i : ℕ) : ℚ :=
  (ww.getD (wordOffset ss i + sentenceWordCount (ss.getD i ("")) - 1) token0).tEnd

/-- The entry the spec promises for sentence `i` in the exact-match case:
boundaries exactly the first/last matched token's start/end. -/
def exactMatchEntry (ss : List String) (ww : List Token) (i : ℕ) : SentenceTimestamp :=
  ⟨ss.getD i (""), rawStartAt ss ww i, rawEndAt ss ww i,
   rawEndAt ss ww i - rawStartAt ss ww i⟩

/-- The full output the spec promises in the exact-match case. -/
def exactMatchSpec (ss : List String) (ww : List Token) : List SentenceTimestamp :=
  (List.range ss.length).map (exactMatchEntry ss ww)

/-! ### Helper lemmas about the normalization passes -/

/-- The repaired pair never overlaps: the new end is at most the new start. -/
theorem fixPair_le (e s : ℚ) : (fixPair e s).1 ≤ (fixPair e s).2 := by
  unfold fixPair
  split_ifs with h
  · exact le_refl _
  · have hes : e ≤ s := not_lt.mp h
    have hmin : min (0.1 : ℚ) ((s - e) / 2) ≤ (s - e) / 2 := min_le_right _ _
    linarith

/-- The pairwise pass never returns the empty list on a nonempty input. -/
theorem ogpGo_ne_nil (a : SentenceTimestamp) (l : List SentenceTimestamp) :
    ogpGo a l ≠ [] := by
  cases l <;> simp [ogpGo]

/-- The head of the pairwise pass keeps the carried entry's start time. -/
theorem ogpGo_head_tStart (a : SentenceTimestamp) (l : List SentenceTimestamp) :
    ∀ h ∈ (ogpGo a l).head?, h.tStart = a.tStart := by
  cases l <;> simp [ogpGo]

/-- After the pairwise pass, consecutive entries satisfy
`end_i ≤ start_{i+1}`. -/
theorem ogpGo_chain (l : List SentenceTimestamp) :
    ∀ a, List.Chain' (fun x y => x.tEnd ≤ y.tStart) (ogpGo a l) := by
  induction l with
  | nil => intro a; simp [ogpGo]
  | cons b rest ih =>
    intro a
    rw [ogpGo, List.chain'_cons']
    refine ⟨?_, ih _⟩
    intro y hy
    have hst := ogpGo_head_tStart ⟨b.text, (fixPair a.tEnd b.tStart).2, b.tEnd, b.dur⟩ rest y hy
    simpa [hst] using fixPair_le a.tEnd b.tStart

/-- All entries of the pairwise pass except the last have their duration
recomputed as `end - start`. -/
theorem ogpGo_dropLast_consistent (l : List SentenceTimestamp) :
    ∀ a, ∀ e ∈ (ogpGo a l).dropLast, e.dur = e.tEnd - e.tStart := by
  induction l with
  | nil => intro a; simp [ogpGo]
  | cons b rest ih =>
    intro a e he
    rw [ogpGo, List.dropLast_cons_of_ne_nil (ogpGo_ne_nil _ _)] at he
    rcases List.mem_cons.mp he with h | h
    · subst h; rfl
    · exact ih _ e h

/-- The clamp keeps or restores duration consistency and makes the duration
nonnegative, provided the incoming duration was already `end - start`. -/
theorem clampEntry_spec (x : SentenceTimestamp) (hx : x.dur = x.tEnd - x.tStart) :
    (clampEntry x).dur = (clampEntry x).tEnd - (clampEntry x).tStart ∧
      0 ≤ (clampEntry x).dur := by
  unfold clampEntry
  split_ifs with h
  · norm_num
  · exact ⟨hx, not_lt.mp h⟩

/-- After the final pass every entry has a nonnegative duration equal to
`end - start`, provided all entries but the last came in consistent. -/
theorem durationClampPass_spec (l : List SentenceTimestamp)
    (hl : ∀ e ∈ l.dropLast, e.dur = e.tEnd - e.tStart) :
    ∀ e ∈ durationClampPass l, e.dur = e.tEnd - e.tStart ∧ 0 ≤ e.dur := by
  induction l with
  | nil => simp [durationClampPass]
  | cons a rest ih =>
    cases rest with
    | nil =>
      intro e he
      rw [durationClampPass] at he
      rcases List.mem_singleton.mp he with h
      subst h
      exact clampEntry_spec _ rfl
    | cons b rest2 =>
      intro e he
      rw [durationClampPass] at he
      rcases List.mem_cons.mp he with h | h
      · subst h
        exact clampEntry_spec _ (hl a (by simp))
      · refine ih ?_ e h
        intro x hx
        exact hl x (by rw [List.dropLast_cons₂]; exact List.mem_cons_of_mem _ hx)

/-- A non-overlap boundary repair on a touching pair is the identity. -/
theorem fixPair_touch (e : ℚ) : fixPair e e = (e, e) := by
  norm_num [fixPair]

/-- The pairwise pass is the identity on sequences whose consecutive
boundaries touch exactly and whose durations are consistent. -/
theorem ogpGo_fixed (l : List SentenceTimestamp) :
    ∀ a, a.dur = a.tEnd - a.tStart →
      List.Chain' (fun x y => x.tEnd = y.tStart) (a :: l) →
      (∀ e ∈ l, e.dur = e.tEnd - e.tStart) →
      ogpGo a l = a :: l := by
  induction l with
  | nil => intro a _ _ _; rfl
  | cons b rest ih =>
    intro a ha hchain hl
    have hab : a.tEnd = b.tStart := (List.chain'_cons.mp hchain).1
    have hfix : fixPair a.tEnd b.tStart = (a.tEnd, b.tStart) := by
      rw [hab, fixPair_touch]
    rw [ogpGo, hfix]
    obtain ⟨ta, sa, ea, da⟩ := a
    obtain ⟨tb, sb, eb, db⟩ := b
    simp only at ha hab ⊢
    rw [ih ⟨tb, sb, eb, db⟩ (hl _ (by simp)) (List.chain'_cons.mp hchain).2
      (fun e he => hl e (List.mem_cons_of_mem _ he))]
    simp [ha]

/-- The final pass is the identity on sequences with consistent nonnegative
durations. -/
theorem durationClampPass_fixed (l : List SentenceTimestamp)
    (hcons : ∀ e ∈ l, e.dur = e.tEnd - e.tStart) (hpos : ∀ e ∈ l, 0 ≤ e.dur) :
    durationClampPass l = l := by
  induction l with
  | nil => rfl
  | cons a rest ih =>
    cases rest with
    | nil =>
      have ha := hcons a (by simp)
      have hp := hpos a (by simp)
      obtain ⟨ta, sa, ea, da⟩ := a
      simp only at ha hp
      rw [durationClampPass]
      rw [show (⟨ta, sa, ea, ea - sa⟩ : SentenceTimestamp) = ⟨ta, sa, ea, da⟩ by rw [ha]]
      rw [clampEntry, if_neg (not_lt.mpr hp)]
    | cons b rest2 =>
      rw [durationClampPass, clampEntry, if_neg (not_lt.mpr (hpos a (by simp)))]
      rw [ih (fun e he => hcons e (List.mem_cons_of_mem _ he))
        (fun e he => hpos e (List.mem_cons_of_mem _ he))]

/-- The normalization stage is the identity on sequences whose consecutive
boundaries touch exactly and whose durations are consistent and
nonnegative. -/
theorem normalizeTimeline_fixed (l : List SentenceTimestamp)
    (htouch : List.Chain' (fun x y => x.tEnd = y.tStart) l)
    (hcons : ∀ e ∈ l, e.dur = e.tEnd - e.tStart)
    (hpos : ∀ e ∈ l, 0 ≤ e.dur) :
    normalizeTimeline l = l := by
  cases l with
  | nil => rfl
  | cons a rest =>
    rw [normalizeTimeline, overlapGapPass]
    rw [ogpGo_fixed rest a (hcons a (by simp)) htouch
      (fun e he => hcons e (List.mem_cons_of_mem _ he))]
    exact durationClampPass_fixed _ hcons hpos

/-! ### Claims C1, C2, C4 about the Timeline Normalizer -/

/-- C1 (counterexample): the claim fails as stated.  First input: the raw
list `[(0,10), (0,0.2), (5.15,5.2)]` (reachable from aligner output) — the
pairwise pass gives entry 1 the negative duration `0.3 - 5`, the final clamp
then moves its end to `5 + 0.1 = 5.1`, which is after entry 2's start
`5.05`, so `end_1 <= start_2` does not hold after normalization.  Second
input: the single entry `(0,0)` — its computed duration `0` is *not* clamped
(the code tests `duration < 0` strictly), so a zero duration survives and
`duration >= 0.1` fails. -/
theorem c1_counterexample :
    ((normalizeTimeline [⟨("a" : String), 0, 10, 10⟩, ⟨("b" : String), 0, 1/5, 1/5⟩,
        ⟨("c" : String), 103/20, 26/5, 3/20⟩]).getD 2 sts0).tStart
      < ((normalizeTimeline [⟨("a" : String), 0, 10, 10⟩, ⟨("b" : String), 0, 1/5, 1/5⟩,
        ⟨("c" : String), 103/20, 26/5, 3/20⟩]).getD 1 sts0).tEnd
    ∧ ((normalizeTimeline [⟨("d" : String), 0, 0, 0⟩]).getD 0 sts0).dur < 0.1
    ∧ normalizeTimeline [⟨("d" : String), 0, 0, 0⟩] = [⟨("d" : String), 0, 0, 0⟩] := by
  norm_num [normalizeTimeline, overlapGapPass, ogpGo, fixPair, durationClampPass,
    clampEntry, sts0]

/-- C1 (amended): after the pairwise repair pass every consecutive pair
satisfies `end_i <= start_{i+1}`; after the final pass every entry has
`duration = end - start >= 0` — strictly negative durations are clamped to
the 0.1s floor, but a zero duration is left unchanged, the 0.1 floor is not
guaranteed, and the final clamp can re-introduce `end_i > start_{i+1}`. -/
theorem c1_normalized_invariants (l : List SentenceTimestamp) :
    List.Chain' (fun x y => x.tEnd ≤ y.tStart) (overlapGapPass l) ∧
    ∀ e ∈ normalizeTimeline l, e.dur = e.tEnd - e.tStart ∧ 0 ≤ e.dur := by
  constructor
  · cases l with
    | nil => simp [overlapGapPass]
    | cons a rest => exact ogpGo_chain rest a
  · intro e he
    refine durationClampPass_spec (overlapGapPass l) ?_ e he
    cases l with
    | nil => simp [overlapGapPass]
    | cons a rest => exact ogpGo_dropLast_consistent rest a

/-- C1 (witness): concrete instance of the amended invariant. -/
theorem c1_witness :
    List.Chain' (fun x y => x.tEnd ≤ y.tStart)
      (overlapGapPass [⟨("x" : String), 0, 1, 1⟩]) ∧
    0 ≤ (⟨("x" : String), 0, 1, 1⟩ : SentenceTimestamp).dur := by
  refine ⟨(c1_normalized_invariants [⟨("x" : String), 0, 1, 1⟩]).1, ?_⟩
  refine ((c1_normalized_invariants [⟨("x" : String), 0, 1, 1⟩]).2
    ⟨("x" : String), 0, 1, 1⟩ ?_).2
  norm_num [normalizeTimeline, overlapGapPass, ogpGo, durationClampPass, clampEntry]

/-- C2 (counterexample): normalization is not idempotent.  On the raw input
`[(0,1), (1.5,2.5)]` the first pass pads the 0.5s gap to `end_1 = 1.1`,
`start_2 = 1.4`; re-running pads the remaining 0.3s gap again to `1.2` and
`1.3`, so `normalize(normalize(S)) != normalize(S)`. -/
theorem c2_counterexample :
    normalizeTimeline (normalizeTimeline
        [⟨("a" : String), 0, 1, 1⟩, ⟨("b" : String), 3/2, 5/2, 1⟩]) ≠
      normalizeTimeline [⟨("a" : String), 0, 1, 1⟩, ⟨("b" : String), 3/2, 5/2, 1⟩] := by
  norm_num [normalizeTimeline, overlapGapPass, ogpGo, fixPair, durationClampPass,
    clampEntry]

/-- C2 (amended): normalization is not idempotent in general — re-running it
pads any remaining positive inter-sentence gap further.  It is a no-op
exactly on its fixed points: sequences whose consecutive boundaries touch
(`end_i = start_{i+1}`) and whose durations are consistent
(`duration = end - start`) and nonnegative. -/
theorem c2_normalize_fixed_point (l : List SentenceTimestamp)
    (htouch : List.Chain' (fun x y => x.tEnd = y.tStart) l)
    (hcons : ∀ e ∈ l, e.dur = e.tEnd - e.tStart)
    (hpos : ∀ e ∈ l, 0 ≤ e.dur) :
    normalizeTimeline l = l :=
  normalizeTimeline_fixed l htouch hcons hpos

/-- C2 (witness): the fixed-point theorem applied to a concrete touching
sequence. -/
theorem c2_witness :
    normalizeTimeline [⟨("a" : String), 0, 1, 1⟩, ⟨("b" : String), 1, 2, 1⟩] =
      [⟨("a" : String), 0, 1, 1⟩, ⟨("b" : String), 1, 2, 1⟩] := by
  refine c2_normalize_fixed_point _ ?_ ?_ ?_
  · norm_num
  · intro e he
    rcases List.mem_cons.mp he with h | h
    · subst h; norm_num
    · rcases List.mem_singleton.mp h with h; subst h; norm_num
  · intro e he
    rcases List.mem_cons.mp he with h | h
    · subst h; norm_num
    · rcases List.mem_singleton.mp h with h; subst h; norm_num

/-- C4 (confirmed): the pairwise repair is exactly: overlap collapses both
boundaries to the midpoint, a gap pads each side by `min(0.1, gap/2)`, a
touching boundary is unchanged; and the pass applies this to the
consecutive pair. -/
theorem c4_pair_repair (e s : ℚ) :
    (s < e → fixPair e s = ((e + s) / 2, (e + s) / 2)) ∧
    (e < s → fixPair e s = (e + min 0.1 ((s - e) / 2), s - min 0.1 ((s - e) / 2))) ∧
    (e = s → fixPair e s = (e, s)) ∧
    (∀ a b : SentenceTimestamp, overlapGapPass [a, b] =
      [⟨a.text, a.tStart, (fixPair a.tEnd b.tStart).1,
        (fixPair a.tEnd b.tStart).1 - a.tStart⟩,
       ⟨b.text, (fixPair a.tEnd b.tStart).2, b.tEnd, b.dur⟩]) := by
  refine ⟨?_, ?_, ?_, ?_⟩
  · intro h
    rw [fixPair, if_pos h]
  · intro h
    rw [fixPair, if_neg (not_lt.mpr h.le)]
  · intro h
    subst h
    exact fixPair_touch e
  · intro a b
    rfl

/-- C4 (witness): the three spec scenarios — overlap `(1.2, 1.0)` collapses
to `(1.1, 1.1)`, gap `(1.0, 1.5)` pads to `(1.1, 1.4)`, touching `(0.5,
0.5)` is unchanged. -/
theorem c4_witness :
    fixPair (6/5) 1 = (11/10, 11/10) ∧ fixPair 1 (3/2) = (11/10, 7/5) ∧
      fixPair (1/2) (1/2) = (1/2, 1/2) := by
  refine ⟨?_, ?_, ?_⟩
  · have h := (c4_pair_repair (6/5) 1).1 (by norm_num)
    rw [h]; norm_num
  · have h := (c4_pair_repair 1 (3/2)).2.1 (by norm_num)
    rw [h]; norm_num
  · exact (c4_pair_repair (1/2) (1/2)).2.2.1 rfl

/-! ### Claim C7 about the empty-token fallback -/

/-- The placeholder layout has one entry per sentence. -/
theorem fallbackGo_length (ss : List String) : ∀ t, (fallbackGo t ss).length = ss.length := by
  induction ss with
  | nil => intro t; rfl
  | cons s rest ih => intro t; simp [fallbackGo, ih]

/-- The `i`-th placeholder entry starts at `t + 2i` and lasts 2 seconds. -/
theorem fallbackGo_getD (ss : List String) :
    ∀ t i, i < ss.length →
      (fallbackGo t ss).getD i sts0 =
        ⟨ss.getD i (""), t + 2 * (i : ℚ), t + 2 * (i : ℚ) + 2, 2⟩ := by
  induction ss with
  | nil => intro t i h; simp at h
  | cons s rest ih =>
    intro t i h
    cases i with
    | zero => simp [fallbackGo]
    | succ i =>
      rw [fallbackGo, List.getD_cons_succ, List.getD_cons_succ,
        ih (t + 2) i (by simpa using h)]
      simp only [SentenceTimestamp.mk.injEq]
      push_cast
      refine ⟨trivial, by ring, by ring, trivial⟩

/-- C7 (confirmed): with a nonempty sentence list and an empty token list,
`get_exact_sentence_timestamps` returns exactly one entry per sentence, the
`i`-th being the placeholder slot `[2i, 2i + 2)` of duration 2 — sequential
2-second slots with zero gaps (`video.py` lines 56-67). -/
theorem c7_empty_tokens_placeholder (ss : List String) (_hne : ss ≠ [])
    (ops : List Opcode) :
    (get_exact_sentence_timestamps ss [] ops).length = ss.length ∧
    ∀ i, i < ss.length →
      (get_exact_sentence_timestamps ss [] ops).getD i sts0 =
        ⟨ss.getD i (""), 2 * (i : ℚ), 2 * (i : ℚ) + 2, 2⟩ := by
  have hgo : get_exact_sentence_timestamps ss [] ops = fallbackGo 0 ss := by
    rw [get_exact_sentence_timestamps, if_pos (Or.inr rfl)]
  rw [hgo]
  refine ⟨fallbackGo_length ss 0, ?_⟩
  intro i hi
  rw [fallbackGo_getD ss 0 i hi]
  norm_num

/-- C7 (witness): two sentences, no tokens — two sequential 2-second
slots. -/
theorem c7_witness :
    (get_exact_sentence_timestamps ["hi", "yo"] [] []).length =
      (["hi", "yo"] : List String).length ∧
    (get_exact_sentence_timestamps ["hi", "yo"] [] []).getD 1 sts0 =
      ⟨(["hi", "yo"] : List String).getD 1 (""), 2 * ((1 : ℕ) : ℚ),
        2 * ((1 : ℕ) : ℚ) + 2, 2⟩ := by
  refine ⟨(c7_empty_tokens_placeholder ["hi", "yo"] (by simp) []).1, ?_⟩
  exact (c7_empty_tokens_placeholder ["hi", "yo"] (by simp) []).2 1 (by norm_num)

/-! ### Claim C9 about the audio slice window -/

/-- C9 (counterexample): with `start_ms = 5000`, `end_ms = 4000` and a
3000ms audio, the fix forces `end = 6000` and then clamps it to `3000`,
which is before the start — the slice window is not well-formed
(`end < start`). -/
theorem c9_counterexample :
    sliceEndMs 5000 4000 3000 = 3000 ∧ ¬ (5000 ≤ sliceEndMs 5000 4000 3000) := by
  constructor <;> decide

/-- C9 (amended): the fixed slice end never exceeds the measured audio
length, so slicing never reads past the end of the audio; the window is
well-formed (`end >= start`) whenever the start itself lies within the
audio (`start_ms <= audio length`) — a start beyond the audio end yields a
degenerate window, which Python slicing turns into an empty clip rather
than an out-of-bounds read. -/
theorem c9_slice_window (s e L : ℤ) :
    sliceEndMs s e L ≤ L ∧ (s ≤ L → s ≤ sliceEndMs s e L) := by
  refine ⟨?_, fun hs => ?_⟩ <;> simp only [sliceEndMs] <;> split_ifs <;> omega

/-- C9 (witness): a window fully inside the audio stays well-formed. -/
theorem c9_witness :
    sliceEndMs 0 500 10000 ≤ 10000 ∧ 0 ≤ sliceEndMs 0 500 10000 :=
  ⟨(c9_slice_window 0 500 10000).1, (c9_slice_window 0 500 10000).2 (by norm_num)⟩

/-! ### Claim C3 about the Playback Timeline Builder -/

/-- Accounting identity of the cursor walk: the final cursor (the composite
track length) is the initial cursor plus the sum of all segment durations,
plus 1 second per normal segment, 2 seconds per slow segment, and the 0.5
second trailing silence. -/
theorem buildPlaybackGo_total (ds : List (ℚ × ℚ)) :
    ∀ (i0 : ℕ) (t0 : ℚ),
      (buildPlaybackGo i0 t0 ds).2
        = t0 + (((buildPlaybackGo i0 t0 ds).1.map (fun s => s.dur)).sum
          + ((buildPlaybackGo i0 t0 ds).1.countP (fun s => !s.isRepeated) : ℚ) * 1
          + ((buildPlaybackGo i0 t0 ds).1.countP (fun s => s.isRepeated) : ℚ) * 2
          + 0.5) := by
  induction ds with
  | nil =>
    intro i0 t0
    simp [buildPlaybackGo]
  | cons d rest ih =>
    intro i0 t0
    obtain ⟨d1, d2⟩ := d
    have h := ih (i0 + 1) (t0 + d1 + 1 + d2 + 2)
    simp only [buildPlaybackGo, List.map_cons, List.sum_cons, List.countP_cons] at h ⊢
    simp only [Bool.not_false, Bool.not_true, if_true, if_false] at h ⊢
    push_cast at h ⊢
    norm_num
    linarith

/-- The cursor walk emits exactly two segments per line. -/
theorem buildPlaybackGo_length (ds : List (ℚ × ℚ)) :
    ∀ (i0 : ℕ) (t0 : ℚ), (buildPlaybackGo i0 t0 ds).1.length = 2 * ds.length := by
  induction ds with
  | nil => intro i0 t0; rfl
  | cons d rest ih =>
    intro i0 t0
    obtain ⟨d1, d2⟩ := d
    simp only [buildPlaybackGo, List.length_cons, ih (i0 + 1)]
    omega

/-- The first emitted segment starts at the initial cursor. -/
theorem buildPlaybackGo_head (ds : List (ℚ × ℚ)) (i0 : ℕ) (t0 : ℚ) :
    ∀ s ∈ (buildPlaybackGo i0 t0 ds).1.head?, s.tStart = t0 := by
  cases ds with
  | nil => simp [buildPlaybackGo]
  | cons d rest =>
    obtain ⟨d1, d2⟩ := d
    simp [buildPlaybackGo]

/-- Unfolding equation for the cursor walk on a cons cell. -/
theorem buildPlaybackGo_eq_cons (i0 : ℕ) (t0 d1 d2 : ℚ) (rest : List (ℚ × ℚ)) :
    buildPlaybackGo i0 t0 ((d1, d2) :: rest)
      = (⟨i0, false, t0, t0 + d1, d1⟩ ::
          ⟨i0, true, t0 + d1 + 1, t0 + d1 + 1 + d2, d2⟩ ::
          (buildPlaybackGo (i0 + 1) (t0 + d1 + 1 + d2 + 2) rest).1,
         (buildPlaybackGo (i0 + 1) (t0 + d1 + 1 + d2 + 2) rest).2) := rfl

/-- Per-line shape of the cursor walk: segments `2k` and `2k+1` are the
normal and slow segment of line `i0 + k`, with starts and ends read off
the running cursor, and segment `2(k+1)` starting 2 seconds after segment
`2k+1` ends. -/
theorem buildPlaybackGo_pair (ds : List (ℚ × ℚ)) :
    ∀ (i0 : ℕ) (t0 : ℚ) (k : ℕ), k < ds.length →
      ((buildPlaybackGo i0 t0 ds).1.getD (2*k) seg0).isRepeated = false ∧
      ((buildPlaybackGo i0 t0 ds).1.getD (2*k+1) seg0).isRepeated = true ∧
      ((buildPlaybackGo i0 t0 ds).1.getD (2*k) seg0).lineIdx = i0 + k ∧
      ((buildPlaybackGo i0 t0 ds).1.getD (2*k+1) seg0).lineIdx = i0 + k ∧
      ((buildPlaybackGo i0 t0 ds).1.getD (2*k) seg0).tEnd
        = ((buildPlaybackGo i0 t0 ds).1.getD (2*k) seg0).tStart + (ds.getD k (0, 0)).1 ∧
      ((buildPlaybackGo i0 t0 ds).1.getD (2*k) seg0).dur = (ds.getD k (0, 0)).1 ∧
      ((buildPlaybackGo i0 t0 ds).1.getD (2*k+1) seg0).tStart
        = ((buildPlaybackGo i0 t0 ds).1.getD (2*k) seg0).tEnd + 1 ∧
      ((buildPlaybackGo i0 t0 ds).1.getD (2*k+1) seg0).tEnd
        = ((buildPlaybackGo i0 t0 ds).1.getD (2*k+1) seg0).tStart + (ds.getD k (0, 0)).2 ∧
      ((buildPlaybackGo i0 t0 ds).1.getD (2*k+1) seg0).dur = (ds.getD k (0, 0)).2 ∧
      (k + 1 < ds.length →
        ((buildPlaybackGo i0 t0 ds).1.getD (2*(k+1)) seg0).tStart
          = ((buildPlaybackGo i0 t0 ds).1.getD (2*k+1) seg0).tEnd + 2) := by
  induction ds with
  | nil => intro i0 t0 k h; simp at h
  | cons d rest ih =>
    intro i0 t0 k hk
    obtain ⟨d1, d2⟩ := d
    cases k with
    | zero =>
      refine ⟨rfl, rfl, by simp [buildPlaybackGo], by simp [buildPlaybackGo],
        by simp [buildPlaybackGo], by simp [buildPlaybackGo], by simp [buildPlaybackGo],
        by simp [buildPlaybackGo], by simp [buildPlaybackGo], ?_⟩
      intro h1
      cases rest with
      | nil => simp at h1
      | cons e rest2 =>
        obtain ⟨e1, e2⟩ := e
        norm_num [buildPlaybackGo]
    | succ k =>
      have hk2 : k < rest.length := by simpa using hk
      have h := ih (i0 + 1) (t0 + d1 + 1 + d2 + 2) k hk2
      have e1 : 2 * (k + 1) = (2 * k + 1) + 1 := by ring
      have e3 : 2 * (k + 1 + 1) = (2 * (k + 1) + 1) + 1 := by ring
      rw [buildPlaybackGo_eq_cons]
      rw [e3, e1]
      simp only [List.getD_cons_succ]
      refine ⟨h.1, h.2.1, ?_, ?_, h.2.2.2.2.1, h.2.2.2.2.2.1,
        h.2.2.2.2.2.2.1, h.2.2.2.2.2.2.2.1, h.2.2.2.2.2.2.2.2.1, ?_⟩
      · rw [h.2.2.1]; omega
      · rw [h.2.2.2.1]; omega
      · intro hh
        have h5 := h.2.2.2.2.2.2.2.2.2 (by simpa using hh)
        rw [e1] at h5
        simpa using h5

/-- C3 (confirmed): the composite track length equals the sum of all
emitted `PlaybackSegment` durations plus the inserted silences — 1 second
per normal segment, 2 seconds per slow segment, 0.5 seconds trailing —
exactly (hence within the claimed 10ms); exactly two segments are emitted
per original line, the normal-speed one (even index) strictly before the
slow-speed one (odd index), with all starts and ends read off the running
cursor (first segment starts at 0, slow segment starts 1s after the normal
one ends, next line starts 2s after the slow one ends).  Clip durations are
the measured nonnegative lengths of the audio pieces
(`video.py` lines 301, 345). -/
theorem c3_playback_roundtrip (ds : List (ℚ × ℚ))
    (hnn : ∀ k, k < ds.length → 0 ≤ (ds.getD k (0, 0)).1) :
    (buildPlayback ds).2
      = ((buildPlayback ds).1.map (fun s => s.dur)).sum
        + ((buildPlayback ds).1.countP (fun s => !s.isRepeated) : ℚ) * 1
        + ((buildPlayback ds).1.countP (fun s => s.isRepeated) : ℚ) * 2 + 0.5 ∧
    (buildPlayback ds).1.length = 2 * ds.length ∧
    (∀ s ∈ (buildPlayback ds).1.head?, s.tStart = 0) ∧
    ∀ k, k < ds.length →
      ((buildPlayback ds).1.getD (2*k) seg0).isRepeated = false ∧
      ((buildPlayback ds).1.getD (2*k+1) seg0).isRepeated = true ∧
      ((buildPlayback ds).1.getD (2*k) seg0).lineIdx = k ∧
      ((buildPlayback ds).1.getD (2*k+1) seg0).lineIdx = k ∧
      ((buildPlayback ds).1.getD (2*k) seg0).tEnd
        = ((buildPlayback ds).1.getD (2*k) seg0).tStart + (ds.getD k (0, 0)).1 ∧
      ((buildPlayback ds).1.getD (2*k) seg0).dur = (ds.getD k (0, 0)).1 ∧
      ((buildPlayback ds).1.getD (2*k+1) seg0).tStart
        = ((buildPlayback ds).1.getD (2*k) seg0).tEnd + 1 ∧
      ((buildPlayback ds).1.getD (2*k+1) seg0).tEnd
        = ((buildPlayback ds).1.getD (2*k+1) seg0).tStart + (ds.getD k (0, 0)).2 ∧
      ((buildPlayback ds).1.getD (2*k+1) seg0).dur = (ds.getD k (0, 0)).2 ∧
      ((buildPlayback ds).1.getD (2*k) seg0).tStart
        < ((buildPlayback ds).1.getD (2*k+1) seg0).tStart ∧
      (k + 1 < ds.length →
        ((buildPlayback ds).1.getD (2*(k+1)) seg0).tStart
          = ((buildPlayback ds).1.getD (2*k+1) seg0).tEnd + 2) := by
  simp only [buildPlayback]
  refine ⟨?_, buildPlaybackGo_length ds 0 0, buildPlaybackGo_head ds 0 0, ?_⟩
  · rw [buildPlaybackGo_total ds 0 0]
    ring
  · intro k hk
    have h := buildPlaybackGo_pair ds 0 0 k hk
    have hz : (0 : ℕ) + k = k := Nat.zero_add k
    refine ⟨h.1, h.2.1, by rw [h.2.2.1, hz], by rw [h.2.2.2.1, hz], h.2.2.2.2.1,
      h.2.2.2.2.2.1, h.2.2.2.2.2.2.1, h.2.2.2.2.2.2.2.1, h.2.2.2.2.2.2.2.2.1, ?_,
      h.2.2.2.2.2.2.2.2.2⟩
    have h5 := h.2.2.2.2.1
    have h7 := h.2.2.2.2.2.2.1
    have hd := hnn k hk
    rw [h7, h5]
    linarith

/-- C3 (witness): one line with measured clip lengths 1s (normal) and 1.5s
(slow): the accounting identity holds and the normal segment starts
strictly before the slow one. -/
theorem c3_witness :
    (buildPlayback [((1:ℚ), (3/2:ℚ))]).2
      = ((buildPlayback [((1:ℚ), (3/2:ℚ))]).1.map (fun s => s.dur)).sum
        + ((buildPlayback [((1:ℚ), (3/2:ℚ))]).1.countP (fun s => !s.isRepeated) : ℚ) * 1
        + ((buildPlayback [((1:ℚ), (3/2:ℚ))]).1.countP (fun s => s.isRepeated) : ℚ) * 2
        + 0.5 ∧
    ((buildPlayback [((1:ℚ), (3/2:ℚ))]).1.getD 0 seg0).tStart
      < ((buildPlayback [((1:ℚ), (3/2:ℚ))]).1.getD 1 seg0).tStart := by
  have h := c3_playback_roundtrip [((1:ℚ), (3/2:ℚ))]
    (by intro k hk
        have hk1 : k < 1 := by simpa using hk
        have hk0 : k = 0 := by omega
        subst hk0
        norm_num [List.getD_cons_zero])
  refine ⟨h.1, ?_⟩
  have h2 := (h.2.2.2 0 (by norm_num)).2.2.2.2.2.2.2.2.2.1
  simpa using h2

/-! ### Claim C8 about the Segment Assembler -/

/-- C8 (counterexample): the claim fails as stated.  First input: one
segment `[0, 1)` with composite duration `T = 1` — the emitted instruction
list ends with the still-frame instruction, but the terminal entry appended
by `video.py` line 425 is the background image, not the final
instruction's image.  Second input: one segment `[0, 0.9995)` with `T = 1`
— the cursor ends at `t = 0.9995 < T`, yet no final background instruction
is emitted because the code requires `t < T - 0.001`
(`video.py` line 419). -/
theorem c8_counterexample :
    buildConcat [⟨0, false, 0, 1, 1⟩] 1 = ([⟨.frame 0, 1⟩], .background) ∧
    ImageRef.frame 0 ≠ ImageRef.background ∧
    buildConcat [⟨0, false, 0, 1999/2000, 1999/2000⟩] 1
      = ([⟨.frame 0, 1999/2000⟩], .background) ∧
    (1999/2000 : ℚ) < 1 := by
  refine ⟨?_, by simp, ?_, by norm_num⟩ <;>
    norm_num [buildConcat, buildConcatGo]

/-- C8 (amended): the assembler walks the cursor as claimed except that the
gap instruction's duration carries a 0.001s floor
(`max(0.001, segment.start - t)`), the final background instruction is
emitted only when `t < T - 0.001` (not whenever `t < T`), and the terminal
entry always references the background image — which coincides with the
final instruction's image only when that instruction is background-only.
The still-frame instruction of duration `max(0.1, end - start)` and the
cursor advance to `segment.end` are as claimed (the code's
`bubble_duration > 0` guard is vacuous since the duration is at least
0.1). -/
theorem c8_assembler_amended (T : ℚ) :
    (∀ segs : List PlaybackSegment, (buildConcat segs T).2 = ImageRef.background) ∧
    (∀ (i : ℕ) (t : ℚ) (seg : PlaybackSegment) (rest : List PlaybackSegment),
      buildConcatGo i t (seg :: rest) T =
        (if seg.tStart > t then [⟨.background, max 0.001 (seg.tStart - t)⟩] else [])
          ++ ⟨.frame i, max 0.1 (seg.tEnd - seg.tStart)⟩
          :: buildConcatGo (i + 1) seg.tEnd rest T) ∧
    (∀ (i : ℕ) (t : ℚ),
      buildConcatGo i t [] T =
        if t < T - 0.001 then [⟨.background, max 0.001 (T - t)⟩] else []) := by
  refine ⟨fun segs => rfl, fun i t seg rest => ?_, fun i t => rfl⟩
  have hbd : (0 : ℚ) < max 0.1 (seg.tEnd - seg.tStart) :=
    lt_of_lt_of_le (by norm_num) (le_max_left _ _)
  rw [buildConcatGo, if_pos hbd]
  simp

/-! ### Claim C10 about the pre-normalization monotonicity fix -/

/-- One step of the entry-building loop after the first entry: the new
entry's start is clamped to at least the previous entry's start, and its
end lands strictly after its start, provided the previous entry was
well-formed. -/
theorem mkEntry_step (ww : List Token) (p : SentenceTimestamp)
    (hp : p.tStart < p.tEnd) (s : String) (indices : List ℕ) :
    p.tStart ≤ (mkEntry ww (some p) s indices).tStart ∧
    (mkEntry ww (some p) s indices).tStart < (mkEntry ww (some p) s indices).tEnd := by
  cases indices with
  | nil =>
    simp only [mkEntry]
    exact ⟨le_of_lt hp, by linarith⟩
  | cons j js =>
    simp only [mkEntry]
    constructor
    · split_ifs <;> simp_all
    · split_ifs <;> simp_all

/-- The entry-building loop, continued after a well-formed entry, produces
only well-formed entries (`end > start`) with non-decreasing starts. -/
theorem buildGo_mono (ww : List Token) (idx : ℕ → List ℕ) :
    ∀ (tail : List String) (i0 : ℕ) (p : SentenceTimestamp), p.tStart < p.tEnd →
      (∀ e ∈ buildGo ww idx (some p) i0 tail, e.tStart < e.tEnd) ∧
      List.Chain' (fun a b => a.tStart ≤ b.tStart)
        (p :: buildGo ww idx (some p) i0 tail) := by
  intro tail
  induction tail with
  | nil => intro i0 p hp; simp [buildGo]
  | cons s rest ih =>
    intro i0 p hp
    have hstep := mkEntry_step ww p hp s (idx i0)
    have hrec := ih (i0 + 1) (mkEntry ww (some p) s (idx i0)) hstep.2
    rw [buildGo]
    constructor
    · intro e he
      rcases List.mem_cons.mp he with h | h
      · subst h; exact hstep.2
      · exact hrec.1 e h
    · rw [List.chain'_cons]
      exact ⟨hstep.1, hrec.2⟩

/-- C10 (counterexample): the claim fails as stated.  Two sentences, one
observed token `(start=1, end=0.5)` matched 1:1 to the first sentence and
the second sentence deleted: the first entry is token-derived but receives
no fix (the monotonicity fix only runs when a previous entry exists), so
its end `0.5` is before its start `1`; the second (fallback) entry then
starts at `0.5 < 1`, so the entry starts decrease. -/
theorem c10_counterexample :
    ((buildSentenceEntries ["a", "b"] [⟨("a" : String), 1, 1/2⟩]
        [⟨.equal, 0, 1, 0, 1⟩, ⟨.delete, 1, 2, 1, 1⟩]).getD 0 sts0).tEnd
      < ((buildSentenceEntries ["a", "b"] [⟨("a" : String), 1, 1/2⟩]
        [⟨.equal, 0, 1, 0, 1⟩, ⟨.delete, 1, 2, 1, 1⟩]).getD 0 sts0).tStart ∧
    ((buildSentenceEntries ["a", "b"] [⟨("a" : String), 1, 1/2⟩]
        [⟨.equal, 0, 1, 0, 1⟩, ⟨.delete, 1, 2, 1, 1⟩]).getD 1 sts0).tStart
      < ((buildSentenceEntries ["a", "b"] [⟨("a" : String), 1, 1/2⟩]
        [⟨.equal, 0, 1, 0, 1⟩, ⟨.delete, 1, 2, 1, 1⟩]).getD 0 sts0).tStart := by
  simp +decide [buildSentenceEntries, buildGo, mkEntry, sentence_to_whisper_indices,
    opcodePairs, opcodeRun, targetWordsWithIdx, twiGo, cleanWords, cleanChars,
    splitWordsGo, token0, sts0, List.getD_cons_zero, List.getD_cons_succ,
    List.range_succ]
  norm_num

/-- C10 (amended): every entry after the first is clamped to start no
earlier than the previous entry's start, and its end is forced strictly
after its start (token-derived entries get `start + 0.5` when needed,
fallback entries span 1 second); the first entry receives no such fix, so
the claimed consequence — starts non-decreasing and `end > start`
everywhere at that stage — holds provided the first built entry itself
satisfies `end > start`. -/
theorem c10_prenormalize_monotonic (ss : List String) (ww : List Token)
    (ops : List Opcode)
    (h0 : ∀ p ∈ (buildSentenceEntries ss ww ops).head?, p.tStart < p.tEnd) :
    List.Chain' (fun a b => a.tStart ≤ b.tStart) (buildSentenceEntries ss ww ops) ∧
    ∀ e ∈ buildSentenceEntries ss ww ops, e.tStart < e.tEnd := by
  cases ss with
  | nil =>
    simp [buildSentenceEntries, buildGo]
  | cons s rest =>
    rw [buildSentenceEntries, buildGo] at h0 ⊢
    set idx := sentence_to_whisper_indices
      ((targetWordsWithIdx (s :: rest)).map Prod.fst) ops with hidx
    set e0 := mkEntry ww none s (idx 0) with he0
    have h0e : e0.tStart < e0.tEnd := h0 e0 (by simp)
    have h := buildGo_mono ww idx rest (0 + 1) e0 h0e
    constructor
    · exact h.2
    · intro e he
      rcases List.mem_cons.mp he with hh | hh
      · subst hh; exact h0e
      · exact h.1 e hh

/-- C10 (witness): two sentences with well-ordered 1:1 tokens — the first
entry is well-formed, hence all starts are non-decreasing and every entry
has `end > start` before normalization. -/
theorem c10_witness :
    List.Chain' (fun a b => a.tStart ≤ b.tStart)
      (buildSentenceEntries ["a", "b"] [⟨("a" : String), 0, 1⟩, ⟨("b" : String), 1, 2⟩]
        [⟨.equal, 0, 2, 0, 2⟩]) ∧
    (0 : ℚ) < 1 := by
  refine ⟨(c10_prenormalize_monotonic ["a", "b"]
    [⟨("a" : String), 0, 1⟩, ⟨("b" : String), 1, 2⟩] [⟨.equal, 0, 2, 0, 2⟩] ?_).1,
    by norm_num⟩
  intro p hp
  simp +decide [buildSentenceEntries, buildGo, mkEntry, sentence_to_whisper_indices,
    opcodePairs, opcodeRun, targetWordsWithIdx, twiGo, cleanWords, cleanChars,
    splitWordsGo, token0, List.getD_cons_zero, List.getD_cons_succ,
    List.range_succ] at hp
  subst hp
  norm_num

/-! ### Claim C6 about insert-run assignment -/

/-- C6 (counterexample): targets `a b` (one word each), observed tokens
`a x b`, edit script `equal(0,1,0,1), insert(1,1,1,2), equal(1,2,2,3)`.
The inserted token 1 sits at the boundary after sentence 0; the claim says
it is assigned to the nearest preceding sentence (sentence 0), but the code
assigns it to the sentence of the target word *at* the insertion point —
sentence 1 — so sentence 0 keeps only token 0 and sentence 1 gets tokens 1
and 2. -/
theorem c6_counterexample :
    sentence_to_whisper_indices [0, 1]
        [⟨.equal, 0, 1, 0, 1⟩, ⟨.insert, 1, 1, 1, 2⟩, ⟨.equal, 1, 2, 2, 3⟩] 0 = [0] ∧
    sentence_to_whisper_indices [0, 1]
        [⟨.equal, 0, 1, 0, 1⟩, ⟨.insert, 1, 1, 1, 2⟩, ⟨.equal, 1, 2, 2, 3⟩] 1 = [1, 2] := by
  constructor <;> decide

/-- C6 (amended): all tokens of an insert run are assigned to the sentence
of the target word at the insertion point `i1` when one exists (at a
sentence boundary this is the *following* sentence), and to the last
target word's sentence when the insertion point is at the end of the
target sequence. -/
theorem c6_insert_run_assignment (twi : List ℕ) (ops1 ops2 : List Opcode)
    (i1 i2 j1 j2 : ℕ) :
    opcodePairs twi (ops1 ++ ⟨.insert, i1, i2, j1, j2⟩ :: ops2)
      = opcodePairs twi ops1
        ++ ((List.range (j2 - j1)).map
              (fun k => ((if i1 < twi.length then twi.getD i1 0
                          else (twi.getLast?).getD 0), j1 + k))
            ++ opcodePairs twi ops2) := by
  induction ops1 with
  | nil => rfl
  | cons op rest ih =>
    simp only [List.cons_append, opcodePairs, List.append_eq, ih, List.append_assoc]

/-! ### Claim C5: characterization of the 1:1 exact-match assignment

Proof-side helpers describing the `(value, position)` pairs of a list and
the contiguous block of positions each sentence occupies in the flattened
target word sequence. -/

/-- The elements of a list paired with their positions, starting at
`base`. -/
def pairsIdx : ℕ → List ℕ → List (ℕ × ℕ)
  | _, [] => []
  | base, v :: vs => (v, base) :: pairsIdx (base + 1) vs

/-- The positions occupied by relative sentence `j` of `ss` when the
sentences' words are laid out consecutively from offset `o`. -/
def sentBlock : List String → ℕ → ℕ → List ℕ
  | [], _, _ => []
  | s :: _, o, 0 => List.range' o (cleanWords s).length
  | s :: rest, o, j + 1 => sentBlock rest (o + (cleanWords s).length) j

/-- The single-equal-opcode pair list is the position-tagged value list. -/
theorem pairsIdx_eq (l : List ℕ) :
    ∀ j, (List.range l.length).map (fun k => (l.getD k 0, j + k)) = pairsIdx j l := by
  induction l with
  | nil => intro j; rfl
  | cons v vs ih =>
    intro j
    rw [List.length_cons, List.range_succ_eq_map, List.map_cons, List.map_map]
    rw [pairsIdx]
    have h1 : ((v :: vs).getD 0 0, j + 0) = (v, j) := by simp
    rw [h1]
    congr 1
    rw [← ih (j + 1)]
    refine List.map_congr_left ?_
    intro k _
    simp only [Function.comp_apply, Nat.succ_eq_add_one, List.getD_cons_succ]
    rw [Prod.mk.injEq]
    exact ⟨rfl, by omega⟩

/-- Variant with the zero offsets the opcode walk produces syntactically. -/
theorem pairsIdx_eq_zero (l : List ℕ) :
    (List.range l.length).map (fun k => (l.getD (0 + k) 0, 0 + k)) = pairsIdx 0 l := by
  rw [← pairsIdx_eq l 0]
  refine List.map_congr_left ?_
  intro k _
  simp

/-- Position tagging distributes over append. -/
theorem pairsIdx_append (xs ys : List ℕ) :
    ∀ base, pairsIdx base (xs ++ ys) = pairsIdx base xs ++ pairsIdx (base + xs.length) ys := by
  induction xs with
  | nil => intro base; simp [pairsIdx]
  | cons v vs ih =>
    intro base
    rw [List.cons_append, pairsIdx, pairsIdx, ih (base + 1), List.cons_append]
    have : base + 1 + vs.length = base + (vs.length + 1) := by omega
    rw [this, List.length_cons]

/-- Filtering a constant block on its own value keeps every position. -/
theorem pairsIdx_replicate_filter_eq (v : ℕ) :
    ∀ (c base : ℕ),
      ((pairsIdx base (List.replicate c v)).filter (fun p => p.1 == v)).map
        (fun p => p.2) = List.range' base c := by
  intro c
  induction c with
  | zero => intro base; rfl
  | succ c ih =>
    intro base
    rw [List.replicate_succ, pairsIdx, List.filter_cons]
    simp only [beq_self_eq_true, if_true, List.map_cons, ih (base + 1)]
    rfl

/-- Filtering position-tagged values on a value that occurs nowhere yields
nothing. -/
theorem pairsIdx_filter_ne (w : ℕ) :
    ∀ (vals : List ℕ) (base : ℕ), (∀ v ∈ vals, v ≠ w) →
      (pairsIdx base vals).filter (fun p => p.1 == w) = [] := by
  intro vals
  induction vals with
  | nil => intro base _; rfl
  | cons v vs ih =>
    intro base hv
    rw [pairsIdx, List.filter_cons]
    have : ¬ (v == w) = true := by simpa using hv v (by simp)
    rw [if_neg this]
    exact ih (base + 1) (fun x hx => hv x (List.mem_cons_of_mem _ hx))

/-- Every flattened target word carries a sentence index at least the
starting index of the flattening. -/
theorem twiGo_fst_ge (ss : List String) :
    ∀ b, ∀ q ∈ twiGo b ss, b ≤ q.1 := by
  induction ss with
  | nil => intro b q hq; simp [twiGo] at hq
  | cons s rest ih =>
    intro b q hq
    rw [twiGo] at hq
    rcases List.mem_append.mp hq with h | h
    · obtain ⟨w, _, hw⟩ := List.mem_map.mp h
      rw [← hw]
    · exact Nat.le_of_succ_le (ih (b + 1) q h)

/-- The sentence indices of the flattening are consecutive constant
blocks. -/
theorem twiGo_map_fst (s : String) (rest : List String) (b : ℕ) :
    (twiGo b (s :: rest)).map Prod.fst
      = List.replicate (cleanWords s).length b ++ (twiGo (b + 1) rest).map Prod.fst := by
  rw [twiGo, List.map_append, List.map_map]
  congr 1
  rw [show (Prod.fst ∘ fun w : String => (b, w)) = Function.const String b from rfl]
  rw [List.map_const]

/-- Core block lemma: filtering the position-tagged flattened sentence
indices on sentence `b + j` yields exactly that sentence's contiguous
position block. -/
theorem filter_pairsIdx_twiGo (ss : List String) :
    ∀ (b o j : ℕ),
      ((pairsIdx o ((twiGo b ss).map Prod.fst)).filter
        (fun p => p.1 == (b + j))).map (fun p => p.2) = sentBlock ss o j := by
  induction ss with
  | nil => intro b o j; rfl
  | cons s rest ih =>
    intro b o j
    rw [twiGo_map_fst, pairsIdx_append, List.filter_append, List.map_append,
      List.length_replicate]
    cases j with
    | zero =>
      rw [sentBlock, Nat.add_zero, pairsIdx_replicate_filter_eq]
      rw [pairsIdx_filter_ne b _ _ ?_]
      · simp
      · intro v hv
        obtain ⟨q, hq, hqv⟩ := List.mem_map.mp hv
        have := twiGo_fst_ge rest (b + 1) q hq
        omega
    | succ j =>
      rw [sentBlock]
      rw [pairsIdx_filter_ne (b + (j + 1)) _ _ ?_]
      · simp only [List.map_nil, List.nil_append]
        have hb : b + (j + 1) = (b + 1) + j := by omega
        rw [hb, ih (b + 1) (o + (cleanWords s).length) j]
      · intro v hv
        have := List.eq_of_mem_replicate hv
        omega

/-- The per-sentence index list under a single full `equal` opcode is the
sentence's contiguous block of token positions. -/
theorem sentIndices_single_equal (ss : List String) (i2 n i : ℕ)
    (hn : n = (targetWordsWithIdx ss).length) :
    sentence_to_whisper_indices ((targetWordsWithIdx ss).map Prod.fst)
      [⟨.equal, 0, i2, 0, n⟩] i = sentBlock ss 0 i := by
  rw [sentence_to_whisper_indices, opcodePairs, opcodePairs, List.append_nil, opcodeRun]
  simp only [Nat.sub_zero]
  rw [hn, show (targetWordsWithIdx ss).length
      = ((targetWordsWithIdx ss).map Prod.fst).length from (List.length_map _ _).symm]
  rw [pairsIdx_eq_zero]
  rw [show targetWordsWithIdx ss = twiGo 0 ss from rfl]
  have h := filter_pairsIdx_twiGo ss 0 0 i
  simp only [Nat.zero_add] at h
  exact h

/-- A sentence's block sits at its word offset with its word count. -/
theorem sentBlock_eq_range' (ss : List String) :
    ∀ (o j : ℕ), j < ss.length →
      sentBlock ss o j
        = List.range' (o + wordOffset ss j) (sentenceWordCount (ss.getD j (""))) := by
  induction ss with
  | nil => intro o j hj; simp at hj
  | cons s rest ih =>
    intro o j hj
    cases j with
    | zero =>
      simp [sentBlock, wordOffset, sentenceWordCount]
    | succ j =>
      rw [sentBlock, ih (o + (cleanWords s).length) j (by simpa using hj)]
      have : o + (cleanWords s).length + wordOffset rest j
          = o + wordOffset (s :: rest) (j + 1) := by
        rw [wordOffset, wordOffset, List.take_succ_cons, List.map_cons, List.sum_cons,
          sentenceWordCount]
        omega
      rw [this]
      rfl

/-- Last element of a consecutive block written in cons form. -/
theorem getLast_cons_range' :
    ∀ (c o : ℕ), (o :: List.range' (o + 1) c).getLast (List.cons_ne_nil _ _) = o + c := by
  intro c
  induction c with
  | zero => intro o; simp
  | succ c ih =>
    intro o
    rw [show List.range' (o + 1) (c + 1) = (o + 1) :: List.range' (o + 2) c from rfl]
    rw [List.getLast_cons (List.cons_ne_nil _ _)]
    rw [ih (o + 1)]
    omega

/-- Evaluation of one raw-entry step on a nonempty contiguous token block:
the entry takes the first block token's start and the last block token's
end; with no previous entry the times are used raw, with a previous entry
they pass through the monotonicity fix. -/
theorem mkEntry_block (ww : List Token) (prev : Option SentenceTimestamp) (s : String)
    (o c : ℕ) :
    mkEntry ww prev s (List.range' o (c + 1))
      = (match prev with
         | none => ⟨s, (ww.getD o token0).tStart, (ww.getD (o + c) token0).tEnd,
             (ww.getD (o + c) token0).tEnd - (ww.getD o token0).tStart⟩
         | some p =>
             let st := if (ww.getD o token0).tStart < p.tStart then p.tStart
                       else (ww.getD o token0).tStart
             let en := if (ww.getD (o + c) token0).tEnd ≤ st then st + 1/2
                       else (ww.getD (o + c) token0).tEnd
             ⟨s, st, en, en - st⟩) := by
  rw [show List.range' o (c + 1) = o :: List.range' (o + 1) c from rfl]
  cases prev with
  | none =>
    rw [mkEntry.eq_def]
    dsimp only
    rw [getLast_cons_range' c o]
  | some p =>
    rw [mkEntry.eq_def]
    dsimp only
    rw [getLast_cons_range' c o]

/-- Under a full 1:1 match with per-sentence blocks, well-ordered spans and
touching boundaries, the entry-building loop continued after the exact
entry for sentence `i0` produces exactly the exact-match entries of the
remaining sentences. -/
theorem buildGo_exact (ss : List String) (ww : List Token) (idx : ℕ → List ℕ)
    (hidx : ∀ i, i < ss.length →
      idx i = List.range' (wordOffset ss i) (sentenceWordCount (ss.getD i (""))))
    (hcnt : ∀ i, i < ss.length → sentenceWordCount (ss.getD i ("")) ≠ 0)
    (hspan : ∀ i, i < ss.length → rawStartAt ss ww i < rawEndAt ss ww i)
    (htouch : ∀ i, i + 1 < ss.length → rawEndAt ss ww i = rawStartAt ss ww (i + 1)) :
    ∀ (tail : List String) (i0 : ℕ), ss.drop (i0 + 1) = tail →
      buildGo ww idx (some (exactMatchEntry ss ww i0)) (i0 + 1) tail
        = (List.range' (i0 + 1) tail.length).map (exactMatchEntry ss ww) := by
  intro tail
  induction tail with
  | nil => intro i0 _; rfl
  | cons s rest ih =>
    intro i0 hdrop
    have hlen : i0 + 1 < ss.length := by
      have hl := congrArg List.length hdrop
      rw [List.length_drop] at hl
      simp only [List.length_cons] at hl
      omega
    have hs : ss.getD (i0 + 1) ("") = s := by
      have h1 : ss[i0+1]? = some s := by
        rw [← List.head?_drop, hdrop]
        rfl
      rw [List.getD_eq_getElem ss ("") hlen]
      exact Option.some.inj ((List.getElem?_eq_getElem hlen).symm.trans h1)
    have hdrop2 : ss.drop (i0 + 1 + 1) = rest := by
      have h3 := List.drop_drop 1 (i0 + 1) ss
      rw [hdrop] at h3
      simpa using h3.symm
    obtain ⟨c, hc⟩ := Nat.exists_eq_succ_of_ne_zero (hcnt (i0 + 1) hlen)
    rw [buildGo]
    have key1 : ¬ ((ww.getD (wordOffset ss (i0 + 1)) token0).tStart
        < (exactMatchEntry ss ww i0).tStart) := by
      have h1 := hspan i0 (by omega)
      have h2 := htouch i0 hlen
      simp only [rawStartAt, rawEndAt] at h1 h2
      simp only [exactMatchEntry, rawStartAt]
      rw [← h2]
      exact not_lt.mpr (le_of_lt h1)
    have key2 : ¬ ((ww.getD (wordOffset ss (i0 + 1) + c) token0).tEnd
        ≤ (ww.getD (wordOffset ss (i0 + 1)) token0).tStart) := by
      have h2 := hspan (i0 + 1) hlen
      simp only [rawStartAt, rawEndAt, hc] at h2
      have hoc : wordOffset ss (i0 + 1) + (c + 1) - 1 = wordOffset ss (i0 + 1) + c := by
        omega
      rw [hoc] at h2
      exact not_le.mpr h2
    have hmk : mkEntry ww (some (exactMatchEntry ss ww i0)) s (idx (i0 + 1))
        = exactMatchEntry ss ww (i0 + 1) := by
      rw [hidx (i0 + 1) hlen, hc, mkEntry_block]
      dsimp only
      rw [if_neg key1, if_neg key2]
      simp only [exactMatchEntry, rawStartAt, rawEndAt, hs]
      have hc2 : sentenceWordCount s = c + 1 := by rw [← hs]; exact hc
      have hoc : wordOffset ss (i0 + 1) + (c + 1) - 1 = wordOffset ss (i0 + 1) + c := by
        omega
      rw [hc2, hoc]
    rw [hmk, ih (i0 + 1) hdrop2]
    rw [List.length_cons, List.range'_succ, List.map_cons]

/-- `Chain'` over a mapped consecutive range reduces to the relation on
consecutive indices. -/
theorem chain'_range'_map {α : Type} (R : α → α → Prop) (f : ℕ → α) :
    ∀ (n a : ℕ), (∀ i, a ≤ i → i + 1 < a + n → R (f i) (f (i + 1))) →
      List.Chain' R ((List.range' a n).map f) := by
  intro n
  induction n with
  | zero => intro a _; simp
  | succ n ih =>
    intro a h
    rw [List.range'_succ, List.map_cons, List.chain'_cons']
    constructor
    · intro y hy
      cases n with
      | zero => simp at hy
      | succ m =>
        rw [List.range'_succ, List.map_cons, List.head?_cons] at hy
        simp only [Option.mem_def, Option.some.injEq] at hy
        rw [← hy]
        exact h a le_rfl (by omega)
    · exact ih (a + 1) (fun i hi hlt => h i (by omega) (by omega))

/-- C5 (counterexample): the claim fails as stated.  Two sentences matched
1:1 to tokens `a:[0,0.5]` and `b:[1,1.5]` (a 0.5s gap between sentences):
the function does not return the token boundaries — the normalization pass
pads the gap, returning `end_1 = 0.6` and `start_2 = 0.9` instead of the
matched token boundaries `0.5` and `1`. -/
theorem c5_counterexample :
    get_exact_sentence_timestamps ["a", "b"]
        [⟨("a" : String), 0, 1/2⟩, ⟨("b" : String), 1, 3/2⟩] [⟨.equal, 0, 2, 0, 2⟩]
      = [⟨("a" : String), 0, 3/5, 3/5⟩, ⟨("b" : String), 9/10, 3/2, 3/5⟩] ∧
    (3/5 : ℚ) ≠ 1/2 ∧ (9/10 : ℚ) ≠ 1 := by
  refine ⟨?_, by norm_num, by norm_num⟩
  have hb : buildSentenceEntries ["a", "b"]
      [⟨("a" : String), 0, 1/2⟩, ⟨("b" : String), 1, 3/2⟩] [⟨.equal, 0, 2, 0, 2⟩]
      = [⟨("a" : String), 0, 1/2, 1/2⟩, ⟨("b" : String), 1, 3/2, 1/2⟩] := by
    simp +decide [buildSentenceEntries, buildGo, mkEntry, sentence_to_whisper_indices,
      opcodePairs, opcodeRun, targetWordsWithIdx, twiGo, cleanWords, cleanChars,
      splitWordsGo, token0, List.getD_cons_zero, List.getD_cons_succ, List.range_succ]
    norm_num [List.getElem_cons_zero, List.getElem_cons_succ,
      show ([⟨("a" : String), 0, 1/2⟩, ⟨("b" : String), 1, 3/2⟩] : List Token)[1]
        = ⟨("b" : String), 1, 3/2⟩ from rfl]
  rw [get_exact_sentence_timestamps, if_neg (by decide), hb]
  norm_num [normalizeTimeline, overlapGapPass, ogpGo, fixPair, durationClampPass,
    clampEntry]

/-- C5 (amended): if every target word matches an observed token 1:1 (a
single `equal` opcode spanning both sequences), every sentence has at least
one cleaned word, each sentence's matched span is positive
(`first token start < last token end`) and consecutive sentences' spans
touch exactly, then `get_exact_sentence_timestamps` returns per-sentence
boundaries exactly equal to the first/last matched token's start/end (the
monotonicity fix and the normalization pass are no-ops).  Without the
touching condition the gap-padding of the normalizer moves the returned
boundaries off the token boundaries by up to 0.1s per side. -/
theorem c5_exact_match_touching (ss : List String) (ww : List Token)
    (hwords : ∀ s ∈ ss, cleanWords s ≠ [])
    (hne : ss ≠ [])
    (hlen : ww.length = (targetWordsWithIdx ss).length)
    (hspan : ∀ i, i < ss.length → rawStartAt ss ww i < rawEndAt ss ww i)
    (htouch : ∀ i, i + 1 < ss.length → rawEndAt ss ww i = rawStartAt ss ww (i + 1)) :
    get_exact_sentence_timestamps ss ww
        [⟨.equal, 0, (targetWordsWithIdx ss).length, 0, ww.length⟩]
      = exactMatchSpec ss ww := by
  obtain ⟨s0, rest, rfl⟩ := List.exists_cons_of_ne_nil hne
  have htwi : targetWordsWithIdx (s0 :: rest) ≠ [] := by
    rw [show targetWordsWithIdx (s0 :: rest) = twiGo 0 (s0 :: rest) from rfl, twiGo]
    intro hcontra
    rcases List.append_eq_nil.mp hcontra with ⟨h1, _⟩
    exact hwords s0 (by simp) (by simpa using h1)
  have hww : ww ≠ [] := by
    intro hcontra
    rw [hcontra] at hlen
    exact htwi (List.length_eq_zero.mp hlen.symm)
  rw [get_exact_sentence_timestamps, if_neg (by push_neg; exact ⟨htwi, hww⟩)]
  have hcnt : ∀ i, i < (s0 :: rest).length →
      sentenceWordCount ((s0 :: rest).getD i ("")) ≠ 0 := by
    intro i hi
    have hmem : (s0 :: rest).getD i ("") ∈ (s0 :: rest) := by
      rw [List.getD_eq_getElem _ ("") hi]
      exact List.getElem_mem hi
    intro hzero
    exact hwords _ hmem (List.length_eq_zero.mp hzero)
  have hidx : ∀ i, i < (s0 :: rest).length →
      sentence_to_whisper_indices ((targetWordsWithIdx (s0 :: rest)).map Prod.fst)
        [⟨.equal, 0, (targetWordsWithIdx (s0 :: rest)).length, 0, ww.length⟩] i
        = List.range' (wordOffset (s0 :: rest) i)
            (sentenceWordCount ((s0 :: rest).getD i (""))) := by
    intro i hi
    rw [sentIndices_single_equal (s0 :: rest) _ _ i hlen,
      sentBlock_eq_range' (s0 :: rest) 0 i hi, Nat.zero_add]
  have hbuild : buildSentenceEntries (s0 :: rest) ww
      [⟨.equal, 0, (targetWordsWithIdx (s0 :: rest)).length, 0, ww.length⟩]
      = exactMatchSpec (s0 :: rest) ww := by
    rw [buildSentenceEntries, buildGo]
    obtain ⟨c0, hc0⟩ := Nat.exists_eq_succ_of_ne_zero (hcnt 0 (by simp))
    have h0 : mkEntry ww none s0
        (sentence_to_whisper_indices ((targetWordsWithIdx (s0 :: rest)).map Prod.fst)
          [⟨.equal, 0, (targetWordsWithIdx (s0 :: rest)).length, 0, ww.length⟩] 0)
        = exactMatchEntry (s0 :: rest) ww 0 := by
      rw [hidx 0 (by simp), hc0, mkEntry_block]
      dsimp only
      simp only [exactMatchEntry, rawStartAt, rawEndAt, hc0]
      have hoc0 : wordOffset (s0 :: rest) 0 + (c0 + 1) - 1
          = wordOffset (s0 :: rest) 0 + c0 := by omega
      rw [hoc0]
      rfl
    rw [h0]
    rw [buildGo_exact (s0 :: rest) ww _ hidx hcnt hspan htouch rest 0 (by simp)]
    rw [exactMatchSpec, List.range_eq_range', List.length_cons, List.range'_succ,
      List.map_cons]
  rw [hbuild]
  refine normalizeTimeline_fixed _ ?_ ?_ ?_
  · rw [exactMatchSpec, List.range_eq_range']
    refine chain'_range'_map _ _ _ 0 ?_
    intro i _ hilt
    exact htouch i (by simpa using hilt)
  · intro e he
    rw [exactMatchSpec] at he
    obtain ⟨i, _, rfl⟩ := List.mem_map.mp he
    rfl
  · intro e he
    rw [exactMatchSpec] at he
    obtain ⟨i, hi, rfl⟩ := List.mem_map.mp he
    have hilen : i < (s0 :: rest).length := List.mem_range.mp hi
    have hsp := hspan i hilen
    show (0 : ℚ) ≤ rawEndAt (s0 :: rest) ww i - rawStartAt (s0 :: rest) ww i
    linarith

/-- C5 (witness): two one-word sentences matched 1:1 to touching tokens
`[0, 0.5]` and `[0.5, 1]` — the returned boundaries are exactly the token
boundaries (the spec's touching scenario). -/
theorem c5_witness :
    get_exact_sentence_timestamps ["a", "b"]
        [⟨("a" : String), 0, 1/2⟩, ⟨("b" : String), 1/2, 1⟩]
        [⟨.equal, 0, (targetWordsWithIdx ["a", "b"]).length, 0,
          ([⟨("a" : String), 0, 1/2⟩, ⟨("b" : String), 1/2, 1⟩] : List Token).length⟩]
      = exactMatchSpec ["a", "b"] [⟨("a" : String), 0, 1/2⟩, ⟨("b" : String), 1/2, 1⟩] := by
  refine c5_exact_match_touching ["a", "b"]
    [⟨("a" : String), 0, 1/2⟩, ⟨("b" : String), 1/2, 1⟩] ?_ ?_ ?_ ?_ ?_
  · decide
  · decide
  · decide
  · intro i hi
    have hi2 : i < 2 := by simpa using hi
    interval_cases i <;>
      simp +decide [rawStartAt, rawEndAt, wordOffset, sentenceWordCount, cleanWords,
        cleanChars, splitWordsGo, token0, List.getD_cons_zero, List.getD_cons_succ]
    all_goals norm_num
  · intro i hi
    have hi1 : i = 0 := by simp at hi; omega
    subst hi1
    simp +decide [rawStartAt, rawEndAt, wordOffset, sentenceWordCount, cleanWords,
      cleanChars, splitWordsGo, token0, List.getD_cons_zero, List.getD_cons_succ]

end LangVideo
